import Mathlib

/-!
Verification of the Tablature Mapper of `TauridTabRipper`
(`src/tabulature_engine.py`, method `TabulatureEngine._create_tab_display`).

The mapper takes an ordered list of MIDI note numbers (Python ints, embedded
as `Int`) and builds six tablature lines, one per guitar string.  Every
definition below is a direct translation of the Python source.
-/

/-- Standard tuning, highest string first:
`self.string_midi = [64, 59, 55, 50, 45, 40]` (line 18 of the source). -/
def string_midi : List Int := [64, 59, 55, 50, 45, 40]

/-- String names top to bottom:
`self.string_names = ["E", "B", "G", "D", "A", "E"]` (line 19 of the source). -/
def string_names : List String := ["E", "B", "G", "D", "A", "E"]

/-- The placement condition of line 94 of the source:
`0 <= fret <= 24` where `fret = note - base_midi`. -/
def placeable (note p : Int) : Prop := 0 ≤ note - p ∧ note - p ≤ 24

instance (note p : Int) : Decidable (placeable note p) :=
  inferInstanceAs (Decidable (0 ≤ note - p ∧ note - p ≤ 24))

/-- The fret cell appended on the string that receives the note
(lines 95-98 of the source): `f"-{fret}-"` when `fret < 10`,
`f"{fret}-"` otherwise. -/
def fretCell (fret : Int) : String :=
  if fret < 10 then "-" ++ toString fret ++ "-" else toString fret ++ "-"

/-- The inner loop `for i, base_midi in enumerate(self.string_midi)`
(lines 92-101 of the source), carrying the `placed` flag.  It walks the
current lines and the open-string pitches in lockstep; a string receives
the fret cell exactly when the note is placeable there and the flag is
still false, and the rest marker `"---"` otherwise.  Returns the updated
lines together with the final value of `placed`. -/
def placeLoop (note : Int) : List String → List Int → Bool → List String × Bool
  | l :: ls, p :: ps, placed =>
    if placeable note p ∧ placed = false then
      let r := placeLoop note ls ps true
      ((l ++ fretCell (note - p)) :: r.1, r.2)
    else
      let r := placeLoop note ls ps placed
      ((l ++ "---") :: r.1, r.2)
  | _, _, placed => ([], placed)

/-- Left fold implementing Python `min(range(6), key=...)`: the running best
index is replaced only when the key is strictly smaller, so the first index
attaining the minimum wins. -/
def argminAux (f : Nat → Nat) : List Nat → Nat → Nat
  | [], best => best
  | i :: is, best => argminAux f is (if f i < f best then i else best)

/-- Line 105 of the source:
`closest_string = min(range(6), key=lambda i: abs(note - self.string_midi[i]))`. -/
def closestString (note : Int) : Nat :=
  argminAux (fun i => (note - string_midi.getD i 0).natAbs) [1, 2, 3, 4, 5] 0

/-- Python slice `s[:-3]` (line 109 of the source): all but the last three
characters; the empty string when fewer than three remain. -/
def dropLast3 (s : String) : String :=
  String.mk s.data.dropLast.dropLast.dropLast

/-- The `if not placed:` block (lines 103-109 of the source): compute the
closest string, and only when its fret exceeds 24 replace the just-appended
rest marker of that line by the annotated numeric fret `f"({fret})"`. -/
def overflowFix (note : Int) (lines : List String) : List String :=
  let c := closestString note
  let fret := note - string_midi.getD c 0
  if 24 < fret then
    lines.set c (dropLast3 (lines.getD c "") ++ "(" ++ toString fret ++ ")")
  else lines

/-- One iteration of `for note in midi_notes` (lines 90-109 of the source). -/
def processNote (lines : List String) (note : Int) : List String :=
  let r := placeLoop note lines string_midi false
  if r.2 then r.1 else overflowFix note r.1

/-- The initial lines `tab_lines = [f"{name}|" for name in self.string_names]`
(line 88 of the source). -/
def lines0 : List String := string_names.map (fun n => n ++ "|")

/-- The value of `tab_lines` after the whole loop over `midi_notes`. -/
def tabLines (midi_notes : List Int) : List String :=
  midi_notes.foldl processNote lines0

/-- `TabulatureEngine._create_tab_display` (lines 83-111 of the source). -/
def create_tab_display (midi_notes : List Int) : String :=
  if midi_notes = [] then "No notes detected in audio file."
  else String.intercalate "\n" (tabLines midi_notes)

/-! ### Basic lemmas about the string loop -/

theorem placeLoop_length (note : Int) :
    ∀ (ps : List Int) (ls : List String) (placed : Bool),
      (placeLoop note ls ps placed).1.length = min ls.length ps.length := by
  intro ps
  induction ps with
  | nil =>
    intro ls placed
    cases ls <;> simp [placeLoop]
  | cons p ps ih =>
    intro ls placed
    cases ls with
    | nil => simp [placeLoop]
    | cons l ls =>
      simp only [placeLoop]
      by_cases hc : placeable note p ∧ placed = false
      · rw [if_pos hc]
        simp only [List.length_cons, ih]
        omega
      · rw [if_neg hc]
        simp only [List.length_cons, ih]
        omega

theorem placeLoop_snd (note : Int) :
    ∀ (ps : List Int) (ls : List String) (placed : Bool),
      ((placeLoop note ls ps placed).2 = true) ↔
        (placed = true ∨ ∃ p ∈ ps.take ls.length, placeable note p) := by
  intro ps
  induction ps with
  | nil =>
    intro ls placed
    cases ls <;> simp [placeLoop]
  | cons p ps ih =>
    intro ls placed
    cases ls with
    | nil => simp [placeLoop]
    | cons l ls =>
      simp only [placeLoop, List.length_cons, List.take_succ_cons]
      by_cases hc : placeable note p ∧ placed = false
      · rw [if_pos hc]
        constructor
        · intro _
          exact Or.inr ⟨p, List.mem_cons_self p _, hc.1⟩
        · intro _
          show (placeLoop note ls ps true).2 = true
          rw [ih]
          exact Or.inl rfl
      · rw [if_neg hc]
        show ((placeLoop note ls ps placed).2 = true) ↔ _
        simp only [ih, List.mem_cons]
        constructor
        · rintro (h | ⟨q, hq, hpl⟩)
          · exact Or.inl h
          · exact Or.inr ⟨q, Or.inr hq, hpl⟩
        · rintro (h | ⟨q, hq | hq, hpl⟩)
          · exact Or.inl h
          · cases placed with
            | true => exact Or.inl rfl
            | false => exact absurd ⟨hq ▸ hpl, rfl⟩ hc
          · exact Or.inr ⟨q, hq, hpl⟩

theorem placeLoop_get (note : Int) :
    ∀ (ps : List Int) (ls : List String) (placed : Bool) (i : Nat),
      i < ls.length → i < ps.length →
      (placeLoop note ls ps placed).1.getD i "" =
        ls.getD i "" ++
          (if placeable note (ps.getD i 0) ∧ placed = false ∧
              ∀ k, k < i → ¬ placeable note (ps.getD k 0)
           then fretCell (note - ps.getD i 0) else "---") := by
  intro ps
  induction ps with
  | nil =>
    intro ls placed i h1 h2
    simp at h2
  | cons p ps ih =>
    intro ls placed i h1 h2
    cases ls with
    | nil => simp at h1
    | cons l ls =>
      simp only [placeLoop]
      cases i with
      | zero =>
        simp only [List.getD_cons_zero]
        by_cases hc : placeable note p ∧ placed = false
        · rw [if_pos hc, if_pos ⟨hc.1, hc.2, fun k hk => absurd hk (Nat.not_lt_zero k)⟩]
          simp
        · rw [if_neg hc, if_neg (fun h => hc ⟨h.1, h.2.1⟩)]
          simp
      | succ i =>
        have h1' : i < ls.length := by simpa using h1
        have h2' : i < ps.length := by simpa using h2
        by_cases hc : placeable note p ∧ placed = false
        · rw [if_pos hc]
          have hmid : ¬ (placeable note (ps.getD i 0) ∧ true = false ∧
              ∀ k, k < i → ¬ placeable note (ps.getD k 0)) := by simp
          have hno : ¬ (placeable note ((p :: ps).getD (i + 1) 0) ∧ placed = false ∧
              ∀ k, k < i + 1 → ¬ placeable note ((p :: ps).getD k 0)) := by
            rintro ⟨-, -, hall⟩
            have h0 := hall 0 (Nat.succ_pos i)
            simp only [List.getD_cons_zero] at h0
            exact h0 hc.1
          show (placeLoop note ls ps true).1.getD i "" = _
          rw [ih ls true i h1' h2', if_neg hmid, if_neg hno]
          simp
        · rw [if_neg hc]
          have hc' : placed = false → ¬ placeable note p := fun hb hp => hc ⟨hp, hb⟩
          have hiff :
              (placeable note (ps.getD i 0) ∧ placed = false ∧
                ∀ k, k < i → ¬ placeable note (ps.getD k 0)) ↔
              (placeable note ((p :: ps).getD (i + 1) 0) ∧ placed = false ∧
                ∀ k, k < i + 1 → ¬ placeable note ((p :: ps).getD k 0)) := by
            simp only [List.getD_cons_succ]
            constructor
            · rintro ⟨ha, hb, hall⟩
              refine ⟨ha, hb, ?_⟩
              intro k hk
              cases k with
              | zero =>
                simpa using hc' hb
              | succ k =>
                simpa using hall k (by omega)
            · rintro ⟨ha, hb, hall⟩
              refine ⟨ha, hb, ?_⟩
              intro k hk
              simpa using hall (k + 1) (by omega)
          show (placeLoop note ls ps placed).1.getD i "" = _
          rw [ih ls placed i h1' h2']
          simp only [List.getD_cons_succ]
          congr 1
          exact if_congr (by simpa only [List.getD_cons_succ] using hiff) rfl rfl

theorem placeLoop_none (note : Int) :
    ∀ (ps : List Int) (ls : List String) (placed : Bool),
      (∀ p ∈ ps, ¬ placeable note p) →
      placeLoop note ls ps placed = ((ls.take ps.length).map (fun l => l ++ "---"), placed) := by
  intro ps
  induction ps with
  | nil =>
    intro ls placed _
    cases ls <;> simp [placeLoop]
  | cons p ps ih =>
    intro ls placed hn
    cases ls with
    | nil => simp [placeLoop]
    | cons l ls =>
      simp only [placeLoop]
      rw [if_neg (fun h => hn p (List.mem_cons_self p ps) h.1)]
      rw [ih ls placed (fun q hq => hn q (List.mem_cons_of_mem p hq))]
      simp

/-! ### Cell facts, the closest-string rule, and the overflow block -/

theorem fretCell_length (f : Int) (h0 : 0 ≤ f) (h1 : f ≤ 24) :
    (fretCell f).length = 3 := by
  interval_cases f <;> decide

theorem fretCell_no_newline (f : Int) (h0 : 0 ≤ f) (h1 : f ≤ 24) :
    Char.ofNat 10 ∉ (fretCell f).data := by
  interval_cases f <;> decide

theorem closestString_lt (note : Int) : closestString note < 6 := by
  simp only [closestString, argminAux]
  split_ifs <;> omega

theorem string_midi_ge_40 : ∀ c, c < 6 → (40 : Int) ≤ string_midi.getD c 0 := by decide

theorem closestString_of_gt (note : Int) (h : 88 < note) : closestString note = 0 := by
  have e1 : ¬ ((note - string_midi.getD 1 0).natAbs < (note - string_midi.getD 0 0).natAbs) := by
    simp only [string_midi, List.getD_cons_zero, List.getD_cons_succ]
    omega
  have e2 : ¬ ((note - string_midi.getD 2 0).natAbs < (note - string_midi.getD 0 0).natAbs) := by
    simp only [string_midi, List.getD_cons_zero, List.getD_cons_succ]
    omega
  have e3 : ¬ ((note - string_midi.getD 3 0).natAbs < (note - string_midi.getD 0 0).natAbs) := by
    simp only [string_midi, List.getD_cons_zero, List.getD_cons_succ]
    omega
  have e4 : ¬ ((note - string_midi.getD 4 0).natAbs < (note - string_midi.getD 0 0).natAbs) := by
    simp only [string_midi, List.getD_cons_zero, List.getD_cons_succ]
    omega
  have e5 : ¬ ((note - string_midi.getD 5 0).natAbs < (note - string_midi.getD 0 0).natAbs) := by
    simp only [string_midi, List.getD_cons_zero, List.getD_cons_succ]
    omega
  show argminAux (fun i => (note - string_midi.getD i 0).natAbs) [1, 2, 3, 4, 5] 0 = 0
  simp only [argminAux]
  rw [if_neg e1, if_neg e2, if_neg e3, if_neg e4, if_neg e5]

theorem dropLast_concat3 (l : List Char) (a b c : Char) :
    (l ++ [a, b, c]).dropLast.dropLast.dropLast = l := by
  have h1 : l ++ [a, b, c] = (l ++ [a, b]) ++ [c] := by simp
  have h2 : l ++ [a, b] = (l ++ [a]) ++ [b] := by simp
  rw [h1, List.dropLast_concat, h2, List.dropLast_concat, List.dropLast_concat]

theorem dropLast3_append (s : String) : dropLast3 (s ++ "---") = s := by
  have h3 : ("---" : String).data = ['-', '-', '-'] := by decide
  simp only [dropLast3, String.data_append, h3, dropLast_concat3]

/-! ### processNote: the two top-level cases of one loop iteration -/

theorem string_midi_length : string_midi.length = 6 := by decide

theorem processNote_not_placed (note : Int) (lines : List String)
    (h6 : lines.length = 6) (hn : ∀ p ∈ string_midi, ¬ placeable note p) :
    processNote lines note = overflowFix note (lines.map (fun l => l ++ "---")) := by
  have hpl := placeLoop_none note string_midi lines false hn
  have htk : lines.take string_midi.length = lines := by
    rw [string_midi_length, ← h6, List.take_length]
  rw [htk] at hpl
  simp only [processNote, hpl]
  rfl

theorem processNote_placed_eq (note : Int) (lines : List String)
    (h6 : lines.length = 6) (hs : ∃ p ∈ string_midi, placeable note p) :
    processNote lines note = (placeLoop note lines string_midi false).1 := by
  have h2 : (placeLoop note lines string_midi false).2 = true := by
    rw [placeLoop_snd]
    refine Or.inr ?_
    rw [h6, show string_midi.take 6 = string_midi from by decide]
    exact hs
  simp only [processNote, h2]
  rfl

theorem processNote_get_placed (note : Int) (lines : List String)
    (h6 : lines.length = 6) (j : Nat) (hj : j < 6)
    (hplace : placeable note (string_midi.getD j 0))
    (hfirst : ∀ k, k < j → ¬ placeable note (string_midi.getD k 0)) :
    ∀ i, i < 6 →
      (processNote lines note).getD i "" =
        lines.getD i "" ++
          (if i = j then fretCell (note - string_midi.getD j 0) else "---") := by
  intro i hi
  have hmem : string_midi.getD j 0 ∈ string_midi := by
    have hjl : j < string_midi.length := by rw [string_midi_length]; exact hj
    rw [List.getD_eq_getElem?_getD, List.getElem?_eq_getElem hjl, Option.getD_some]
    exact List.getElem_mem hjl
  rw [processNote_placed_eq note lines h6 ⟨string_midi.getD j 0, hmem, hplace⟩]
  rw [placeLoop_get note string_midi lines false i (by omega) (by rw [string_midi_length]; omega)]
  congr 1
  by_cases hij : i = j
  · subst hij
    rw [if_pos ⟨hplace, rfl, hfirst⟩, if_pos rfl]
  · rw [if_neg ?hcond, if_neg hij]
    case hcond =>
      rintro ⟨hpi, -, hall⟩
      rcases Nat.lt_or_ge i j with hlt | hge
      · exact hfirst i hlt hpi
      · exact hall j (by omega) hplace

theorem overflowFix_length (note : Int) (lines : List String) :
    (overflowFix note lines).length = lines.length := by
  simp only [overflowFix]
  split_ifs <;> simp

theorem processNote_length (note : Int) (lines : List String) (h6 : lines.length = 6) :
    (processNote lines note).length = 6 := by
  have hpl : (placeLoop note lines string_midi false).1.length = 6 := by
    rw [placeLoop_length, h6, string_midi_length]
    omega
  simp only [processNote]
  by_cases h2 : (placeLoop note lines string_midi false).2 = true
  · rw [if_pos h2]
    exact hpl
  · rw [if_neg h2, overflowFix_length]
    exact hpl

/-! ### Generic getD helpers -/

theorem getD_map_append (lines : List String) (s : String) (i : Nat) (hi : i < lines.length) :
    (lines.map (fun l => l ++ s)).getD i "" = lines.getD i "" ++ s := by
  have him : i < (lines.map (fun l => l ++ s)).length := by simpa using hi
  rw [List.getD_eq_getElem?_getD, List.getElem?_eq_getElem him, Option.getD_some,
      List.getElem_map, List.getD_eq_getElem?_getD, List.getElem?_eq_getElem hi, Option.getD_some]

theorem getD_set_self (l : List String) (j : Nat) (a : String) (hj : j < l.length) :
    (l.set j a).getD j "" = a := by
  have hj' : j < (l.set j a).length := by simpa using hj
  rw [List.getD_eq_getElem?_getD, List.getElem?_eq_getElem hj', Option.getD_some,
      List.getElem_set_self]

theorem getD_set_ne (l : List String) (j i : Nat) (a : String) (hi : i < l.length)
    (hne : j ≠ i) :
    (l.set j a).getD i "" = l.getD i "" := by
  have hi' : i < (l.set j a).length := by simpa using hi
  rw [List.getD_eq_getElem?_getD, List.getElem?_eq_getElem hi', Option.getD_some,
      List.getElem_set_ne hne, List.getD_eq_getElem?_getD, List.getElem?_eq_getElem hi,
      Option.getD_some]

/-! ### The unplaced case: which notes reach the overflow block -/

theorem not_placed_cases (note : Int) (lines : List String) (h6 : lines.length = 6)
    (h2 : ¬ (placeLoop note lines string_midi false).2 = true) :
    ∀ p ∈ string_midi, ¬ placeable note p := by
  intro p hp hpl
  refine h2 ((placeLoop_snd note string_midi lines false).mpr (Or.inr ⟨p, ?_, hpl⟩))
  rw [h6, show string_midi.take 6 = string_midi from by decide]
  exact hp

theorem note_lt_40_of_unplaceable (note : Int)
    (hn : ∀ p ∈ string_midi, ¬ placeable note p) (hle : ¬ 88 < note) : note < 40 := by
  have h64 := hn 64 (by decide)
  have h40 := hn 40 (by decide)
  simp only [placeable] at h64 h40
  omega

theorem overflowFix_id_of_lt (note : Int) (h : note < 40) (lines : List String) :
    overflowFix note lines = lines := by
  have hc := closestString_lt note
  have hb := string_midi_ge_40 (closestString note) hc
  have hno : ¬ (24 < note - string_midi.getD (closestString note) 0) := by omega
  simp only [overflowFix]
  rw [if_neg hno]

theorem processNote_growth (note : Int) (lines : List String) (h6 : lines.length = 6)
    (hov : ¬ 88 < note) :
    ∀ i, i < 6 → ∃ c : String, c.length = 3 ∧ Char.ofNat 10 ∉ c.data ∧
      (processNote lines note).getD i "" = lines.getD i "" ++ c := by
  intro i hi
  by_cases h2 : (placeLoop note lines string_midi false).2 = true
  · have he : processNote lines note = (placeLoop note lines string_midi false).1 := by
      simp only [processNote]
      rw [if_pos h2]
    rw [he, placeLoop_get note string_midi lines false i (by omega)
      (by rw [string_midi_length]; omega)]
    by_cases hcnd : placeable note (string_midi.getD i 0) ∧ (false : Bool) = false ∧
        ∀ k, k < i → ¬ placeable note (string_midi.getD k 0)
    · rw [if_pos hcnd]
      exact ⟨fretCell (note - string_midi.getD i 0),
        fretCell_length _ hcnd.1.1 hcnd.1.2, fretCell_no_newline _ hcnd.1.1 hcnd.1.2, rfl⟩
    · rw [if_neg hcnd]
      exact ⟨"---", by decide, by decide, rfl⟩
  · have hn := not_placed_cases note lines h6 h2
    have hlt := note_lt_40_of_unplaceable note hn hov
    rw [processNote_not_placed note lines h6 hn, overflowFix_id_of_lt note hlt]
    exact ⟨"---", by decide, by decide, getD_map_append lines "---" i (by omega)⟩

/-! ### Invariant: header plus three characters per processed note -/

def stringHeader (i : Nat) : String := string_names.getD i "" ++ "|"

def GoodTab (k : Nat) (lines : List String) : Prop :=
  lines.length = 6 ∧ ∀ i, i < 6 → ∃ rest : String,
    lines.getD i "" = stringHeader i ++ rest ∧ rest.length = 3 * k ∧
    Char.ofNat 10 ∉ rest.data

theorem goodTab_lines0 : GoodTab 0 lines0 := by
  refine ⟨by decide, ?_⟩
  intro i hi
  interval_cases i <;> exact ⟨"", by decide, by decide, by decide⟩

theorem goodTab_step (note : Int) (hov : ¬ 88 < note) (k : Nat) (lines : List String)
    (hg : GoodTab k lines) : GoodTab (k + 1) (processNote lines note) := by
  obtain ⟨h6, hline⟩ := hg
  refine ⟨processNote_length note lines h6, ?_⟩
  intro i hi
  obtain ⟨c, hc3, hcn, heq⟩ := processNote_growth note lines h6 hov i hi
  obtain ⟨rest, hr, hrl, hrn⟩ := hline i hi
  refine ⟨rest ++ c, ?_, ?_, ?_⟩
  · rw [heq, hr, String.append_assoc]
  · rw [String.length_append, hrl, hc3]
    ring
  · simp only [String.data_append, List.mem_append]
    rintro (h | h)
    · exact hrn h
    · exact hcn h

theorem goodTab_fold (notes : List Int) :
    ∀ (k : Nat) (lines : List String), (∀ n ∈ notes, ¬ 88 < n) → GoodTab k lines →
      GoodTab (k + notes.length) (notes.foldl processNote lines) := by
  induction notes with
  | nil =>
    intro k lines _ hg
    simpa using hg
  | cons n ns ih =>
    intro k lines hov hg
    simp only [List.foldl_cons, List.length_cons]
    have hstep := ih (k + 1) (processNote lines n)
      (fun m hm => hov m (List.mem_cons_of_mem n hm))
      (goodTab_step n (hov n (List.mem_cons_self n ns)) k lines hg)
    have harr : k + (ns.length + 1) = (k + 1) + ns.length := by omega
    rw [harr]
    exact hstep

theorem goodTab_tabLines (notes : List Int) (hov : ∀ n ∈ notes, ¬ 88 < n) :
    GoodTab notes.length (tabLines notes) := by
  have h := goodTab_fold notes 0 lines0 hov goodTab_lines0
  simpa [tabLines] using h

/-! ### Header invariant, valid for arbitrary note sequences -/

def HeaderTab (lines : List String) : Prop :=
  lines.length = 6 ∧ ∀ i, i < 6 → ∃ rest : String,
    lines.getD i "" = stringHeader i ++ rest

theorem headerTab_lines0 : HeaderTab lines0 := by
  refine ⟨by decide, ?_⟩
  intro i hi
  interval_cases i <;> exact ⟨"", by decide⟩

theorem headerTab_step (note : Int) (lines : List String) (hh : HeaderTab lines) :
    HeaderTab (processNote lines note) := by
  obtain ⟨h6, hline⟩ := hh
  refine ⟨processNote_length note lines h6, ?_⟩
  intro i hi
  by_cases h2 : (placeLoop note lines string_midi false).2 = true
  · have he : processNote lines note = (placeLoop note lines string_midi false).1 := by
      simp only [processNote]
      rw [if_pos h2]
    obtain ⟨rest, hr⟩ := hline i hi
    rw [he, placeLoop_get note string_midi lines false i (by omega)
      (by rw [string_midi_length]; omega), hr, String.append_assoc]
    exact ⟨rest ++ _, rfl⟩
  · have hn := not_placed_cases note lines h6 h2
    rw [processNote_not_placed note lines h6 hn]
    simp only [overflowFix]
    by_cases hfr : 24 < note - string_midi.getD (closestString note) 0
    · rw [if_pos hfr]
      by_cases hic : i = closestString note
      · rw [← hic]
        have hil : i < lines.length := by omega
        have hilm : i < (lines.map (fun l => l ++ "---")).length := by simpa using hil
        rw [getD_set_self _ i _ hilm, getD_map_append lines "---" i hil]
        obtain ⟨rest, hr⟩ := hline i hi
        rw [hr, String.append_assoc, dropLast3_append, String.append_assoc,
          String.append_assoc]
        exact ⟨rest ++ ("(" ++ (toString (note - string_midi.getD i 0) ++ ")")), rfl⟩
      · have hil : i < lines.length := by omega
        rw [getD_set_ne _ _ i _ (by simpa using hil) (fun h => hic h.symm),
          getD_map_append lines "---" i hil]
        obtain ⟨rest, hr⟩ := hline i hi
        rw [hr, String.append_assoc]
        exact ⟨rest ++ "---", rfl⟩
    · rw [if_neg hfr]
      have hil : i < lines.length := by omega
      rw [getD_map_append lines "---" i hil]
      obtain ⟨rest, hr⟩ := hline i hi
      rw [hr, String.append_assoc]
      exact ⟨rest ++ "---", rfl⟩

theorem headerTab_fold :
    ∀ (notes : List Int) (lines : List String), HeaderTab lines →
      HeaderTab (notes.foldl processNote lines) := by
  intro notes
  induction notes with
  | nil => intro lines hh; simpa using hh
  | cons n ns ih =>
    intro lines hh
    simp only [List.foldl_cons]
    exact ih (processNote lines n) (headerTab_step n lines hh)

theorem headerTab_tabLines (notes : List Int) : HeaderTab (tabLines notes) :=
  headerTab_fold notes lines0 headerTab_lines0

theorem tabLines_length (notes : List Int) : (tabLines notes).length = 6 :=
  (headerTab_tabLines notes).1

/-! ### Destructuring six lines and joining them -/

theorem exists_six (l : List String) (h : l.length = 6) :
    ∃ a b c d e f, l = [a, b, c, d, e, f] := by
  match l, h with
  | [a, b, c, d, e, f], _ => exact ⟨a, b, c, d, e, f, rfl⟩

theorem intercalate_six (a b c d e f : String) :
    String.intercalate "\n" [a, b, c, d, e, f] =
      a ++ "\n" ++ b ++ "\n" ++ c ++ "\n" ++ d ++ "\n" ++ e ++ "\n" ++ f := rfl

theorem count_newline_six (a b c d e f : String) :
    5 ≤ ((a ++ "\n" ++ b ++ "\n" ++ c ++ "\n" ++ d ++ "\n" ++ e ++ "\n" ++ f).data.count
      (Char.ofNat 10)) := by
  have hnl : ("\n" : String).data = [Char.ofNat 10] := by decide
  simp only [String.data_append, hnl, List.count_append]
  have h1 : [Char.ofNat 10].count (Char.ofNat 10) = 1 := by decide
  rw [h1]
  omega

/-! ## The claims -/

/-- C1, counterexample: the note 30 is below the lowest open string (40), hence not
placeable on any string; the closest-open-pitch string is index 5; yet the code leaves
that slot as the plain rest marker and attaches no overflow annotation, because the
replacement at line 109 of the source happens only when the closest fret exceeds 24.
This falsifies the claim for pitches below the lowest open string. -/
theorem c1_below_range_counterexample :
    (∀ i, i < 6 → ¬ placeable 30 (string_midi.getD i 0)) ∧
    closestString 30 = 5 ∧
    (tabLines [30]).getD 5 "" = "E|---" ∧
    (tabLines [30]).getD 5 "" ≠
      stringHeader 5 ++ ("(" ++ toString ((30 : Int) - string_midi.getD 5 0) ++ ")") := by
  refine ⟨by decide, by decide, by decide, by decide⟩

/-- C1, amended: for a note more than 24 frets above the highest open string the Mapper
selects string 0 (the closest open pitch), and replaces that slot by the overflow
annotation carrying the numeric fret `note - tuning[0]`; but for a note below the
lowest open string no annotation is produced: every string keeps the rest marker. -/
theorem c1_overflow_only_above (note : Int) (lines : List String) (h6 : lines.length = 6) :
    (88 < note →
      closestString note = 0 ∧
      processNote lines note =
        (lines.map (fun l => l ++ "---")).set 0
          (lines.getD 0 "" ++ "(" ++ toString (note - string_midi.getD 0 0) ++ ")")) ∧
    (note < 40 →
      processNote lines note = lines.map (fun l => l ++ "---")) := by
  constructor
  · intro h
    have hn : ∀ p ∈ string_midi, ¬ placeable note p := by
      intro p hp hpl
      have hp64 : p ≤ 64 := by fin_cases hp <;> norm_num
      simp only [placeable] at hpl
      omega
    have hcs := closestString_of_gt note h
    refine ⟨hcs, ?_⟩
    rw [processNote_not_placed note lines h6 hn]
    simp only [overflowFix, hcs]
    have hfr : 24 < note - string_midi.getD 0 0 := by
      simp only [string_midi, List.getD_cons_zero]
      omega
    rw [if_pos hfr]
    have h0 : (0 : Nat) < lines.length := by omega
    rw [getD_map_append lines "---" 0 h0, dropLast3_append]
  · intro h
    have hn : ∀ p ∈ string_midi, ¬ placeable note p := by
      intro p hp hpl
      have hp40 : 40 ≤ p := by fin_cases hp <;> norm_num
      simp only [placeable] at hpl
      omega
    rw [processNote_not_placed note lines h6 hn, overflowFix_id_of_lt note h]

/-- C1, witness: note 100 (12 above the 24-fret limit of string 0) gets the overflow
annotation with fret 36 on string 0; note 30 leaves all six rest markers untouched. -/
theorem c1_overflow_only_above_witness :
    closestString 100 = 0 ∧
    processNote lines0 100 = ["E|(36)", "B|---", "G|---", "D|---", "A|---", "E|---"] ∧
    processNote lines0 30 = ["E|---", "B|---", "G|---", "D|---", "A|---", "E|---"] := by
  have h1 := (c1_overflow_only_above 100 lines0 (by decide)).1 (by norm_num)
  have h2 := (c1_overflow_only_above 30 lines0 (by decide)).2 (by norm_num)
  refine ⟨h1.1, ?_, ?_⟩
  · rw [h1.2]
    decide
  · rw [h2]
    decide

/-- C2: for every nonempty note sequence the returned text is the join of exactly six
lines by single newlines; and for every prefix of k notes none of which takes the
overflow path (pitch at most 88), each line built so far is the two-character header
followed by a portion of length exactly 3 * k. -/
theorem c2_six_lines_and_cell_width (notes : List Int) (hne : notes ≠ []) :
    (∃ a b c d e f, tabLines notes = [a, b, c, d, e, f] ∧
      create_tab_display notes =
        a ++ "\n" ++ b ++ "\n" ++ c ++ "\n" ++ d ++ "\n" ++ e ++ "\n" ++ f) ∧
    (∀ pre post, notes = pre ++ post → (∀ n ∈ pre, ¬ 88 < n) →
      ∀ i, i < 6 → ∃ rest : String,
        (tabLines pre).getD i "" = stringHeader i ++ rest ∧
        rest.length = 3 * pre.length) := by
  constructor
  · obtain ⟨a, b, c, d, e, f, hsix⟩ := exists_six (tabLines notes) (tabLines_length notes)
    refine ⟨a, b, c, d, e, f, hsix, ?_⟩
    rw [create_tab_display, if_neg hne, hsix, intercalate_six]
  · intro pre post hsplit hov i hi
    obtain ⟨rest, hr, hrl, -⟩ := (goodTab_tabLines pre hov).2 i hi
    exact ⟨rest, hr, hrl⟩

/-- C2, witness: for the single note 64 the output is six joined lines and line 0 is
the header followed by one 3-character cell. -/
theorem c2_six_lines_and_cell_width_witness :
    create_tab_display [64] =
      "E|-0-" ++ "\n" ++ "B|---" ++ "\n" ++ "G|---" ++ "\n" ++ "D|---" ++ "\n" ++
        "A|---" ++ "\n" ++ "E|---" ∧
    (∃ rest : String, (tabLines [64]).getD 0 "" = stringHeader 0 ++ rest ∧
      rest.length = 3 * ([64] : List Int).length) := by
  refine ⟨by decide, ?_⟩
  exact (c2_six_lines_and_cell_width [64] (by decide)).2 [64] [] (by decide) (by decide)
    0 (by norm_num)

/-- C3, counterexample: after processing the single note 89 (fret 25 on string 0, the
overflow path), line 0 has length 6 while line 1 has length 5, so the six lines do not
all have equal length at every point of construction. -/
theorem c3_lockstep_counterexample :
    ((tabLines [89]).getD 0 "").length = 6 ∧ ((tabLines [89]).getD 1 "").length = 5 := by
  refine ⟨by decide, by decide⟩

/-- C3, amended: for every note sequence none of whose notes takes the overflow path
(pitch at most 88), after each processed note all six lines have equal length,
namely the header plus exactly one 3-character cell per processed note. -/
theorem c3_lockstep_amended (notes : List Int) (hov : ∀ n ∈ notes, ¬ 88 < n)
    (pre post : List Int) (hsplit : notes = pre ++ post) :
    ∀ i j, i < 6 → j < 6 →
      ((tabLines pre).getD i "").length = 2 + 3 * pre.length ∧
      ((tabLines pre).getD i "").length = ((tabLines pre).getD j "").length := by
  have hpre : ∀ n ∈ pre, ¬ 88 < n := by
    intro n hn
    refine hov n ?_
    rw [hsplit]
    exact List.mem_append_left post hn
  have hlen : ∀ i, i < 6 → ((tabLines pre).getD i "").length = 2 + 3 * pre.length := by
    intro i hi
    obtain ⟨rest, hr, hrl, -⟩ := (goodTab_tabLines pre hpre).2 i hi
    rw [hr, String.length_append, hrl]
    have hh : (stringHeader i).length = 2 := by interval_cases i <;> decide
    omega
  intro i j hi hj
  exact ⟨hlen i hi, by rw [hlen i hi, hlen j hj]⟩

/-- C3, witness: after the single in-range note 64, line 0 has length 5 = 2 + 3 and
equals the length of line 5. -/
theorem c3_lockstep_amended_witness :
    ((tabLines [64]).getD 0 "").length = 2 + 3 * ([64] : List Int).length ∧
    ((tabLines [64]).getD 0 "").length = ((tabLines [64]).getD 5 "").length :=
  c3_lockstep_amended [64] (by decide) [64] [] (by simp) 0 5 (by norm_num) (by norm_num)

/-- C4: scanning strings in display order (string 0 carrying the highest open pitch),
a placeable note goes to the first string whose fret lies in 0..24: that string gets
the fret cell appended and every other string gets the rest marker for this slot. -/
theorem c4_first_match (note : Int) (lines : List String) (h6 : lines.length = 6)
    (j : Nat) (hj : j < 6)
    (hplace : placeable note (string_midi.getD j 0))
    (hfirst : ∀ k, k < j → ¬ placeable note (string_midi.getD k 0)) :
    (∀ p ∈ string_midi, p ≤ string_midi.getD 0 0) ∧
    (∀ i, i < 6 →
      (processNote lines note).getD i "" =
        lines.getD i "" ++
          (if i = j then fretCell (note - string_midi.getD j 0) else "---")) :=
  ⟨by decide, processNote_get_placed note lines h6 j hj hplace hfirst⟩

/-- C4, witness: note 50 is first placeable on string 3 (open pitch 50); string 3
receives the fret cell and string 0 receives the rest marker. -/
theorem c4_first_match_witness :
    (processNote lines0 50).getD 3 "" =
      lines0.getD 3 "" ++ fretCell ((50 : Int) - string_midi.getD 3 0) ∧
    (processNote lines0 50).getD 0 "" = lines0.getD 0 "" ++ "---" := by
  have h := (c4_first_match 50 lines0 (by decide) 3 (by norm_num) (by decide)
    (by decide)).2
  constructor
  · have h3 := h 3 (by norm_num)
    rw [h3, if_pos rfl]
  · have h0 := h 0 (by norm_num)
    rw [h0, if_neg (by norm_num)]

/-- C5: the Mapper is total with exactly two outcomes: the fixed sentinel for the
empty sequence, and for every nonempty sequence the six-line tablature, which always
contains newlines and hence is never the sentinel. -/
theorem c5_totality (notes : List Int) :
    (notes = [] → create_tab_display notes = "No notes detected in audio file.") ∧
    (notes ≠ [] →
      create_tab_display notes = String.intercalate "\n" (tabLines notes) ∧
      (tabLines notes).length = 6 ∧
      5 ≤ ((create_tab_display notes).data.count (Char.ofNat 10)) ∧
      create_tab_display notes ≠ "No notes detected in audio file.") := by
  constructor
  · intro h
    rw [create_tab_display, if_pos h]
  · intro hne
    have h1 : create_tab_display notes = String.intercalate "\n" (tabLines notes) := by
      rw [create_tab_display, if_neg hne]
    obtain ⟨a, b, c, d, e, f, hsix⟩ := exists_six _ (tabLines_length notes)
    have h2 : create_tab_display notes =
        a ++ "\n" ++ b ++ "\n" ++ c ++ "\n" ++ d ++ "\n" ++ e ++ "\n" ++ f := by
      rw [h1, hsix, intercalate_six]
    have hcount : 5 ≤ (create_tab_display notes).data.count (Char.ofNat 10) := by
      rw [h2]
      exact count_newline_six a b c d e f
    refine ⟨h1, tabLines_length notes, hcount, ?_⟩
    intro heq
    have hzero : ("No notes detected in audio file." : String).data.count (Char.ofNat 10)
        = 0 := by decide
    rw [heq, hzero] at hcount
    exact absurd hcount (by norm_num)

/-- C5, witness: the empty sequence yields the sentinel, and the sequence consisting
of note 64 yields an output different from the sentinel. -/
theorem c5_totality_witness :
    create_tab_display [] = "No notes detected in audio file." ∧
    create_tab_display [64] ≠ "No notes detected in audio file." :=
  ⟨(c5_totality []).1 rfl, ((c5_totality [64]).2 (by decide)).2.2.2⟩

/-- C6: the empty sequence returns the fixed sentinel, which contains no newline
(so it is not a six-line text) and differs from the six empty-pipe lines. -/
theorem c6_empty_sentinel :
    create_tab_display [] = "No notes detected in audio file." ∧
    (create_tab_display []).data.count (Char.ofNat 10) = 0 ∧
    create_tab_display [] ≠ String.intercalate "\n" lines0 := by
  refine ⟨by decide, by decide, by decide⟩

/-- C7: for a fret in 0..24 the cell is exactly 3 characters: below 10 it is a dash,
one digit, and a dash; from 10 on it is the two digits and a dash with no leading
dash; the rest marker has width 3 as well. -/
theorem c7_cell_width (f : Int) (h0 : 0 ≤ f) (h1 : f ≤ 24) :
    (fretCell f).length = 3 ∧
    (f < 10 → fretCell f = "-" ++ toString f ++ "-" ∧ (toString f).length = 1) ∧
    (10 ≤ f → fretCell f = toString f ++ "-" ∧ (toString f).length = 2 ∧
      (fretCell f).data.getD 0 (Char.ofNat 0) ≠ Char.ofNat 45) ∧
    ("---" : String).length = 3 := by
  interval_cases f <;> exact ⟨by decide, by decide, by decide, by decide⟩

/-- C7, witness: fret 7 renders as a 3-character dash-padded cell and fret 13 as a
3-character cell with no leading dash. -/
theorem c7_cell_width_witness :
    (fretCell 7).length = 3 ∧ (fretCell 13).length = 3 :=
  ⟨(c7_cell_width 7 (by norm_num) (by norm_num)).1,
    (c7_cell_width 13 (by norm_num) (by norm_num)).1⟩

/-- C8: a note equal to the open pitch of string i, not placeable on any string of
smaller index, is placed on string i with fret 0; in particular notes = [64] yields
the cell -0- on line 0 and rest markers on the other five lines. -/
theorem c8_open_pitch_fret_zero :
    (∀ (lines : List String), lines.length = 6 → ∀ i, i < 6 →
      (∀ k, k < i → ¬ placeable (string_midi.getD i 0) (string_midi.getD k 0)) →
      (processNote lines (string_midi.getD i 0)).getD i "" = lines.getD i "" ++ "-0-") ∧
    tabLines [64] = ["E|-0-", "B|---", "G|---", "D|---", "A|---", "E|---"] := by
  constructor
  · intro lines h6 i hi hfirst
    have hplace : placeable (string_midi.getD i 0) (string_midi.getD i 0) := by
      simp [placeable]
    have h := processNote_get_placed (string_midi.getD i 0) lines h6 i hi hplace hfirst i hi
    rw [h, if_pos rfl, sub_self]
    have hz : fretCell 0 = "-0-" := by decide
    rw [hz]
  · decide

/-- C8, witness: at string 0, the open pitch 64 itself is placed with fret cell -0-. -/
theorem c8_open_pitch_fret_zero_witness :
    (processNote lines0 (string_midi.getD 0 0)).getD 0 "" = lines0.getD 0 "" ++ "-0-" :=
  c8_open_pitch_fret_zero.1 lines0 (by decide) 0 (by norm_num)
    (fun k hk => absurd hk (by omega))

/-- C9: the Mapper performs no deduplication: for [64, 65], one semitone apart, both
notes get their own 3-character slot on every line, neither being dropped. -/
theorem c9_no_dedup :
    tabLines [64, 65] =
      ["E|-0--1-", "B|------", "G|------", "D|------", "A|------", "E|------"] ∧
    (∀ i, i < 6 → ((tabLines [64, 65]).getD i "").length = 2 + 3 * 2) := by
  refine ⟨by decide, by decide⟩

/-- C10: line i of the output starts with the i-th string name followed by a pipe
(E|, B|, G|, D|, A|, E| top to bottom) before any fret cells, and with k non-overflow
cells its total length is 2 + 3 * k. -/
theorem c10_line_headers (notes : List Int) (hne : notes ≠ []) (i : Nat) (hi : i < 6) :
    lines0 = ["E|", "B|", "G|", "D|", "A|", "E|"] ∧
    (∃ rest : String, (tabLines notes).getD i "" = stringHeader i ++ rest) ∧
    ((∀ n ∈ notes, ¬ 88 < n) → ((tabLines notes).getD i "").length = 2 + 3 * notes.length) := by
  refine ⟨by decide, (headerTab_tabLines notes).2 i hi, ?_⟩
  intro hov
  obtain ⟨rest, hr, hrl, -⟩ := (goodTab_tabLines notes hov).2 i hi
  rw [hr, String.length_append, hrl]
  have hh : (stringHeader i).length = 2 := by interval_cases i <;> decide
  omega

/-- C10, witness: for the single note 64, line 0 starts with its header and has
total length 2 + 3. -/
theorem c10_line_headers_witness :
    (∃ rest : String, (tabLines [64]).getD 0 "" = stringHeader 0 ++ rest) ∧
    ((tabLines [64]).getD 0 "").length = 2 + 3 * ([64] : List Int).length := by
  have h := c10_line_headers [64] (by decide) 0 (by norm_num)
  exact ⟨h.2.1, h.2.2 (by decide)⟩
